import Mathlib

/-!
# Verification of the password_store secret cache (actions/secrets.go)

This file gives a shallow embedding of the Go program in `actions/secrets.go`
of loeyt/password_store and settles the specification claims against it.

Strings from the Go program are modelled as `List Char` (Go strings are byte
sequences holding UTF-8 text; where the Go code indexes raw bytes we model the
UTF-8 encoding explicitly).  File contents are `List Nat` (bytes).  Fallible
operations return `Except` or `Option`.  The external gpg process and the
Unicode NFKD transformer are modelled as oracle parameters, since their
behaviour is outside the program; everything else is translated directly from
the source (including the Go standard library functions the source calls:
`strings.TrimPrefix`/`TrimSuffix`, `path.Base`/`Dir`/`Clean`/`Join`,
`filepath.Match`, `bufio.Scanner` with `ScanLines`, `encoding/base64`,
`golang.org/x/crypto/openpgp/armor`, and the `os/exec` `Run`/`Wait` protocol).
-/

namespace PassStore

/-! ## Go `strings` primitives (strings.HasPrefix/HasSuffix/TrimPrefix/TrimSuffix) -/

/-- Go strings.HasPrefix. -/
def goHasPref (s pre : List Char) : Bool :=
  List.isPrefixOf pre s

/-- Go strings.HasSuffix. -/
def goHasSuf (s suf : List Char) : Bool :=
  List.isSuffixOf suf s

/-- Go strings.TrimPrefix: returns s without the provided leading prefix
string; s is returned unchanged if it does not start with it. -/
def goTrimPref (s pre : List Char) : List Char :=
  if goHasPref s pre then s.drop pre.length else s

/-- Go strings.TrimSuffix: returns s without the provided trailing suffix
string; s is returned unchanged if it does not end with it. -/
def goTrimSuf (s suf : List Char) : List Char :=
  if goHasSuf s suf then s.take (s.length - suf.length) else s

/-! ## Go `path` package: Base, Clean, Dir, Join

Translated from the Go standard library `path` package (purely lexical
operations). -/

/-- Drop trailing '/' characters (the first loop of Go path.Base). -/
def dropTrailingSlashes (p : List Char) : List Char :=
  (p.reverse.dropWhile (fun c => c = '/')).reverse

/-- The part of p after the last '/' (p[i+1:] for i = LastIndex(p, "/");
p itself when it has no slash). -/
def afterLastSlash (p : List Char) : List Char :=
  (p.reverse.takeWhile (fun c => c ≠ '/')).reverse

/-- The part of p up to and including the last '/' (the dir half of Go
path.Split); empty when p has no slash. -/
def upToLastSlash (p : List Char) : List Char :=
  (p.reverse.dropWhile (fun c => c ≠ '/')).reverse

/-- Go path.Base: the last element of the path, after stripping trailing
slashes.  Empty path gives ".", all-slash path gives "/". -/
def goPathBase (p : List Char) : List Char :=
  if p = [] then ['.']
  else
    let q := dropTrailingSlashes p
    if q = [] then ['/'] else afterLastSlash q

/-- The backtracking step of Go path.Clean for a ".." element: the buffer is
kept reversed (head = most recently written character); characters are popped
until a '/' is popped or the buffer length reaches dotdot.  This mirrors
`out.w--; for out.w > dotdot && out.index(out.w) != Separator { out.w-- }`. -/
def cleanBacktrack (dotdot : Nat) : List Char → List Char
  | [] => []
  | c :: rest => if dotdot < rest.length ∧ c ≠ '/' then cleanBacktrack dotdot rest else rest

/-- The main loop of Go path.Clean.  `rout` is the output buffer reversed,
`dd` is the Go dotdot marker, the Bool argument means we are inside the inner
loop of the default case that copies one path element.  Each step consumes at
least one character of `rem`, so the Nat fuel (initially the length of the
whole path) never runs out; it only makes the recursion structural. -/
def cleanLoop (rooted : Bool) : Nat → Bool → List Char → List Char → Nat → List Char
  | 0, _, _, rout, _ => rout
  | _ + 1, _, [], rout, _ => rout
  | fuel + 1, true, c :: r, rout, dd =>
    if c = '/' then cleanLoop rooted fuel false r rout dd
    else cleanLoop rooted fuel true r (c :: rout) dd
  | fuel + 1, false, c :: r, rout, dd =>
    if c = '/' then cleanLoop rooted fuel false r rout dd
    else if c = '.' ∧ (r = [] ∨ r.head? = some '/') then
      cleanLoop rooted fuel false r rout dd
    else if c = '.' ∧ r.head? = some '.' ∧ (r.tail = [] ∨ r.tail.head? = some '/') then
      (if dd < rout.length then
        cleanLoop rooted fuel false r.tail (cleanBacktrack dd rout) dd
      else if ¬ rooted then
        let rout2 := '.' :: '.' :: (if rout.length > 0 then '/' :: rout else rout)
        cleanLoop rooted fuel false r.tail rout2 rout2.length
      else
        cleanLoop rooted fuel false r.tail rout dd)
    else
      let needSep := (rooted ∧ rout.length ≠ 1) ∨ (¬ rooted ∧ rout.length ≠ 0)
      cleanLoop rooted fuel true r (c :: (if needSep then '/' :: rout else rout)) dd

/-- Go path.Clean: the shortest lexically equivalent path. -/
def goPathClean (p : List Char) : List Char :=
  if p = [] then ['.']
  else
    let rooted := p.head? = some '/'
    let out :=
      if rooted then cleanLoop true p.length false p.tail ['/'] 1
      else cleanLoop false p.length false p [] 0
    if out = [] then ['.'] else out.reverse

/-- Go path.Dir: Split off the last element, then Clean the remainder. -/
def goPathDir (p : List Char) : List Char :=
  goPathClean (upToLastSlash p)

/-- Go path.Join for two elements: skip leading empty elements, join with
'/', Clean the result; all-empty input gives the empty path. -/
def goPathJoin (a b : List Char) : List Char :=
  if a = [] then (if b = [] then [] else goPathClean b)
  else goPathClean (a ++ '/' :: b)

/-- Go filepath.Match specialised to the literal pattern `*.gpg` that the
walker uses: `*` matches any (possibly empty) run of non-separator
characters, so a name matches exactly when it ends in ".gpg" and the stem
before the suffix contains no separator. -/
def matchStarDotGpg (name : List Char) : Bool :=
  goHasSuf name ".gpg".data &&
    (name.take (name.length - ".gpg".data.length)).all (fun c => c ≠ '/')

/-! ## The identifier normalizer (normalize in secrets.go)

The Go code runs `transform.String(norm.NFKD, s)` and then keeps, of the
resulting UTF-8 byte string, the bytes `rs[i]` with `i` ranging over the rune
start positions and `rs[i] < 0x80`.  A byte below 0x80 is always a rune start,
and every byte of a multi-byte rune (lead and continuation) is at least 0x80,
so the kept bytes are exactly the bytes `< 0x80` of the UTF-8 encoding.  The
NFKD transformer itself is external (a large Unicode table); it is passed as
an oracle argument. -/

/-- UTF-8 encoding of one code point, byte values as `Nat`. -/
def utf8EncodeChar (c : Char) : List Nat :=
  let n := c.toNat
  if n < 128 then [n]
  else if n < 2048 then [192 + n / 64, 128 + n % 64]
  else if n < 65536 then [224 + n / 4096, 128 + n / 64 % 64, 128 + n % 64]
  else [240 + n / 262144, 128 + n / 4096 % 64, 128 + n / 64 % 64, 128 + n % 64]

/-- The NFKD transformer as an oracle: code point sequence in, decomposed
code point sequence out, or a transform error. -/
def NfkdOracle : Type := List Char → Except Unit (List Char)

/-- Go normalize: NFKD-decompose, keep the bytes `< 0x80` of the UTF-8 form
(see the section comment), empty string when the transform fails. -/
def normalize (nfkd : NfkdOracle) (s : List Char) : List Char :=
  match nfkd s with
  | .error _ => []
  | .ok rs =>
    (((rs.map utf8EncodeChar).flatten).filter (fun b => decide (b < 128))).map Char.ofNat

/-- Modelled from the spec: "apply NFKD to s, then drop every resulting code
point with value ≥ 0x80 (keep only the ASCII subset of the decomposition)";
"on decomposition failure, returns an empty string". -/
def normalizeSpec (nfkd : NfkdOracle) (s : List Char) : List Char :=
  match nfkd s with
  | .error _ => []
  | .ok rs => rs.filter (fun c => decide (c.toNat < 128))

/-- The fragment of the Unicode NFKD character decomposition needed for the
spec's example: U+00C5 (Å) decomposes to A followed by U+030A (combining ring
above), U+00F6 (ö) decomposes to o followed by U+0308 (combining diaeresis),
and ASCII code points decompose to themselves. -/
def nfkdCharLatin (c : Char) : List Char :=
  if c = 'Å' then ['A', Char.ofNat 778]
  else if c = 'ö' then ['o', Char.ofNat 776]
  else [c]

/-- The per-character table `nfkdCharLatin` as an `NfkdOracle`. -/
def nfkdLatin : NfkdOracle := fun s => .ok (s.map nfkdCharLatin).flatten

/-! ## The recipient loader (readIDs in secrets.go)

readIDs scans `.gpg-id` with a `bufio.Scanner` using the default `ScanLines`
split function and appends every non-empty token, in scan order. -/

/-- The dropCR step of bufio.ScanLines: strip one trailing '\r'. -/
def dropCR (l : List Char) : List Char :=
  if l.getLast? = some '\r' then l.dropLast else l

/-- Token stream of a `bufio.Scanner` with `ScanLines`: a token per newline
(the '\n' consumed, a trailing '\r' dropped), plus a final token for leftover
data at EOF when non-empty.  `cur` is the reversed partial line. -/
def scanTokens (cur : List Char) : List Char → List (List Char)
  | [] => if cur = [] then [] else [dropCR cur.reverse]
  | c :: r =>
    if c = '\n' then dropCR cur.reverse :: scanTokens [] r
    else scanTokens (c :: cur) r

/-- The readIDs scan loop: every non-empty token, in order (the Go loop
skips `id == ""` and appends the rest). -/
def scanIDs (content : List Char) : List (List Char) :=
  (scanTokens [] content).filter (fun id => decide (id ≠ []))

/-- Newline-separated segments of a character list (an empty trailing segment
when the list ends in '\n').  Used by the declarative line model and by the
armor decoder. -/
def splitNl : List Char → List (List Char)
  | [] => [[]]
  | c :: r =>
    if c = '\n' then [] :: splitNl r
    else
      match splitNl r with
      | [] => [[c]]
      | l :: ls => (c :: l) :: ls

/-- Modelled from the spec: the recipient loader "returns exactly its
non-empty lines, in file order, without deduplication or sorting" (lines are
the newline-separated segments, with a Windows '\r' stripped as ScanLines
does). -/
def nonEmptyLines (content : List Char) : List (List Char) :=
  ((splitNl content).map dropCR).filter (fun l => decide (l ≠ []))

/-- The gpg argument list built by Load: `--encrypt --armor` followed by one
`-r id` pair per recipient, in recipient order (the Go
`for _, id := range ids { args = append(args, "-r", id) }` loop). -/
def gpgArgs (ids : List (List Char)) : List (List Char) :=
  ids.foldl (fun args id => args ++ ["-r".data, id]) ["--encrypt".data, "--armor".data]

/-! ## Base64 (encoding/base64 StdEncoding) and CRC-24, for the armor encoder -/

/-- The standard base64 alphabet. -/
def b64Alphabet : List Char :=
  "ABCDEFGHIJKLMNOPQRSTUVWXYZabcdefghijklmnopqrstuvwxyz0123456789+/".data

/-- Character for a 6-bit group. -/
def b64Chr (n : Nat) : Char := b64Alphabet.getD n 'A'

/-- Index of a character in the base64 alphabet ('=' and anything else give
none). -/
def b64DecChr (c : Char) : Option Nat := b64Alphabet.findIdx? (fun d => d == c)

/-- base64.StdEncoding encoding: three bytes to four characters, with '='
padding for a final group of one or two bytes. -/
def b64Encode : List Nat → List Char
  | [] => []
  | [a] => [b64Chr (a / 4), b64Chr (a % 4 * 16), '=', '=']
  | [a, b] => [b64Chr (a / 4), b64Chr (a % 4 * 16 + b / 16), b64Chr (b % 16 * 4), '=']
  | a :: b :: c :: rest =>
    b64Chr (a / 4) :: b64Chr (a % 4 * 16 + b / 16) ::
      b64Chr (b % 16 * 4 + c / 64) :: b64Chr (c % 64) :: b64Encode rest

/-- base64 decoding, strict about padding: '=' may only close the final
group, and the unused bits of a padded group must be zero. -/
def b64Decode : List Char → Option (List Nat)
  | [] => some []
  | c1 :: c2 :: c3 :: c4 :: rest =>
    (match b64DecChr c1, b64DecChr c2 with
     | some s1, some s2 =>
       if c3 = '=' then
         (if c4 = '=' ∧ rest = [] ∧ s2 % 16 = 0 then some [s1 * 4 + s2 / 16] else none)
       else
         (match b64DecChr c3 with
          | some s3 =>
            if c4 = '=' then
              (if rest = [] ∧ s3 % 4 = 0 then
                some [s1 * 4 + s2 / 16, s2 % 16 * 16 + s3 / 4]
              else none)
            else
              (match b64DecChr c4, b64Decode rest with
               | some s4, some bs =>
                 some ((s1 * 4 + s2 / 16) :: (s2 % 16 * 16 + s3 / 4) :: (s3 % 4 * 64 + s4) :: bs)
               | _, _ => none)
          | none => none)
     | _, _ => none)
  | _ => none

/-- One shift-and-conditionally-xor step of the OpenPGP CRC-24
(`crc <<= 1; if crc & 0x1000000 != 0 { crc ^= crc24Poly }`). -/
def crc24Bit (c : Nat) : Nat :=
  let c2 := c * 2
  if c2 / 0x1000000 % 2 = 1 then c2 ^^^ 0x1864cfb else c2

/-- Iterate `crc24Bit`. -/
def crcBits : Nat → Nat → Nat
  | 0, c => c
  | n + 1, c => crcBits n (crc24Bit c)

/-- One input byte of the CRC-24 (`crc ^= uint32(b) << 16`, then eight bit
steps). -/
def crc24Update (crc b : Nat) : Nat := crcBits 8 (crc ^^^ (b * 65536))

/-- The OpenPGP CRC-24 of a byte sequence, init 0xB704CE. -/
def crc24 (data : List Nat) : Nat := data.foldl crc24Update 0xb704ce

/-- The three checksum bytes the armor encoder appends (big-endian 24-bit
CRC). -/
def crc24Bytes (data : List Nat) : List Nat :=
  let c := crc24 data
  [c / 65536 % 256, c / 256 % 256, c % 256]

/-! ## The armor encoder (enarmor in secrets.go, via x/crypto/openpgp/armor)

`enarmor` pipes the file bytes through `armor.Encode(buf, "PGP MESSAGE",
nil)`: a `-----BEGIN PGP MESSAGE-----` line, a blank line (no headers), the
base64 stream wrapped at 64 characters by the armor lineBreaker (which
separates lines with '\n' and leaves no trailing newline), then `\n=`, the
base64 of the three CRC-24 bytes, and the `-----END PGP MESSAGE-----` line.
Writing to a bytes.Buffer cannot fail, so the only error returns of the Go
enarmor are unreachable and it is modelled as total. -/

def armorBeginLine : List Char := "-----BEGIN PGP MESSAGE-----".data

def armorEndLine : List Char := "-----END PGP MESSAGE-----".data

/-- Split into chunks of 64 characters (the armor lineBreaker's line length).
The Nat fuel (initially the list length) only makes the recursion structural;
each step consumes at least one character. -/
def chunks64F : Nat → List Char → List (List Char)
  | _, [] => []
  | 0, _ :: _ => []
  | fuel + 1, c :: r => (c :: r.take 63) :: chunks64F fuel (r.drop 63)

/-- Chunks of 64 characters. -/
def chunks64 (l : List Char) : List (List Char) := chunks64F l.length l

/-- Join lines with '\n' separators (no trailing newline), as the armor
lineBreaker emits them. -/
def intercalateNl : List (List Char) → List Char
  | [] => []
  | [l] => l
  | l :: ls => l ++ '\n' :: intercalateNl ls

/-- Go enarmor: the full armored text for the given file bytes. -/
def enarmor (content : List Nat) : List Char :=
  armorBeginLine ++ '\n' :: '\n' ::
    (intercalateNl (chunks64 (b64Encode content)) ++
      '\n' :: '=' ::
        (b64Encode (crc24Bytes content) ++ '\n' :: (armorEndLine ++ ['\n'])))

/-- Does a line start with '='?  The armor decoder uses this to find the
checksum line that terminates the base64 data. -/
def lineStartsWithEq : List Char → Bool
  | '=' :: _ => true
  | _ => false

/-- An armor decoder with the structure of x/crypto/openpgp/armor's Decode:
match the BEGIN line, the empty header section, base64 data lines up to the
line starting with '=', the CRC-24 checksum on that line, and the END line;
reject anything malformed or a checksum mismatch. -/
def armorDecode (s : List Char) : Option (List Nat) :=
  match splitNl s with
  | l0 :: l1 :: rest =>
    if l0 = armorBeginLine ∧ l1 = [] then
      match rest.span (fun l => ! lineStartsWithEq l) with
      | (dataLines, csLine :: e0 :: e1 :: []) =>
        if e0 = armorEndLine ∧ e1 = [] then
          match csLine with
          | '=' :: cs4 =>
            (match b64Decode dataLines.flatten, b64Decode cs4 with
             | some data, some csBytes =>
               if csBytes = crc24Bytes data then some data else none
             | _, _ => none)
          | _ => none
        else none
      | _ => none
    else none
  | _ => none

/-! ## The secret cache data model and Load (secrets.go) -/

/-- The key of the secrets map (Go `secretName`). -/
structure secretName where
  path : List Char
  username : List Char
deriving DecidableEq

/-- One record of the serialized index (the anonymous `item` struct local to
Load). -/
structure IndexItem where
  domain : List Char
  path : List Char
  username : List Char
  usernameNormalized : List Char
deriving DecidableEq

/-- The shared state of the Go `SecretsResource`: the store root and the
fields populated by Load.  The `sync.RWMutex` is modelled separately, in the
scheduling machine of the concurrency section. -/
structure SecretsResource where
  store : List Char
  loaded : Bool
  index : List Char
  secrets : List (secretName × List Char)
deriving DecidableEq

/-- Go map assignment `m[k] = v`: any existing binding of k is replaced.  The
map is modelled as an association list with unique keys. -/
def mapPut (k : secretName) (v : List Char) (m : List (secretName × List Char)) :
    List (secretName × List Char) :=
  (m.filter (fun kv => decide (kv.1 ≠ k))) ++ [(k, v)]

/-- The filesystem as Load consumes it: the outcome of the `filepath.Walk`
pass (the matching filenames in traversal order, or a traversal error — the
walker's own filtering of `.git`, directories, depth-1 files and non-`*.gpg`
names happens inside the walk) and the contents of regular files by path
(`none` models an open error). -/
structure GoFS where
  walkResult : Except (List Char) (List (List Char))
  readFile : List Char → Option (List Nat)

/-- The stem of a secret filename: store-root prefix and ".gpg" suffix
stripped (`strings.TrimSuffix(strings.TrimPrefix(filename, v.store),
".gpg")`). -/
def secretStem (store filename : List Char) : List Char :=
  goTrimSuf (goTrimPref filename store) ".gpg".data

/-- The username of a secret filename: `path.Base` of the stem. -/
def secretUsername (store filename : List Char) : List Char :=
  goPathBase (secretStem store filename)

/-- The relative path of a secret filename:
`strings.TrimPrefix(path.Dir(secret), "/")`. -/
def secretRelPath (store filename : List Char) : List Char :=
  goTrimPref (goPathDir (secretStem store filename)) "/".data

/-- The domain of a secret filename: `path.Base` of the relative path. -/
def secretDomain (store filename : List Char) : List Char :=
  goPathBase (secretRelPath store filename)

/-- Go readSecret: open the file and pipe it through enarmor (enarmor itself
cannot fail on a bytes.Buffer, so the open is the only failure point). -/
def readSecret (fs : GoFS) (filename : List Char) : Except (List Char) (List Char) :=
  match fs.readFile filename with
  | none =>
    .error ("failed to open file: open ".data ++ filename ++
      ": no such file or directory".data)
  | some content => .ok (enarmor content)

/-- The `for _, filename := range filenames` loop of Load: one IndexItem
appended per file, and one secrets-map entry stored under the same
(path, username) key; a read failure aborts the whole loop. -/
def buildEntries (nfkd : NfkdOracle) (fs : GoFS) (store : List Char) :
    List (List Char) → List IndexItem → List (secretName × List Char) →
    Except (List Char) (List IndexItem × List (secretName × List Char))
  | [], index, secrets => .ok (index, secrets)
  | filename :: rest, index, secrets =>
    let username := secretUsername store filename
    let secret := secretRelPath store filename
    let it : IndexItem :=
      { domain := secretDomain store filename, path := secret,
        username := username, usernameNormalized := normalize nfkd username }
    match readSecret fs filename with
    | .error e => .error ("failed to read secret ".data ++ filename ++ ": ".data ++ e)
    | .ok text =>
      buildEntries nfkd fs store rest (index ++ [it])
        (mapPut { path := secret, username := username } text secrets)

/-- Bytes of a text file viewed as characters (`.gpg-id` holds ASCII
recipient identifiers; newline handling is byte-for-byte the same). -/
def bytesAsChars (bs : List Nat) : List Char := bs.map Char.ofNat

/-- Go readIDs: open `.gpg-id` in the store root and scan its non-empty
lines, in order. -/
def readIDs (fs : GoFS) (store : List Char) : Except (List Char) (List (List Char)) :=
  match fs.readFile (goPathJoin store ".gpg-id".data) with
  | none =>
    .error ("open ".data ++ goPathJoin store ".gpg-id".data ++
      ": no such file or directory".data)
  | some content => .ok (scanIDs (bytesAsChars content))

/-- Hex digit for the JSON \u00XX escapes. -/
def jsonHex (n : Nat) : Char := "0123456789abcdef".data.getD n '0'

/-- Go encoding/json string escaping: quote, backslash, newline, carriage
return and tab get two-character escapes, other control characters and the
HTML-sensitive characters get \u00XX. -/
def jsonEscapeChar (c : Char) : List Char :=
  if c = '\"' then ['\\', '\"']
  else if c = '\\' then ['\\', '\\']
  else if c = '\n' then ['\\', 'n']
  else if c = '\r' then ['\\', 'r']
  else if c = '\t' then ['\\', 't']
  else if c.toNat < 32 ∨ c = '<' ∨ c = '>' ∨ c = '&' then
    ['\\', 'u', '0', '0', jsonHex (c.toNat / 16), jsonHex (c.toNat % 16)]
  else [c]

/-- A JSON string literal. -/
def jsonStr (s : List Char) : List Char :=
  '\"' :: (s.map jsonEscapeChar).flatten ++ ['\"']

/-- '\x7b', written by code point to keep braces out of string literals. -/
def lbrace : Char := Char.ofNat 123

/-- '\x7d'. -/
def rbrace : Char := Char.ofNat 125

/-- json.Marshal of one index item: the four string fields with their struct
tags, in field order. -/
def jsonOfItem (it : IndexItem) : List Char :=
  lbrace ::
    (jsonStr "domain".data ++ ':' :: jsonStr it.domain ++
      ',' :: jsonStr "path".data ++ ':' :: jsonStr it.path ++
      ',' :: jsonStr "username".data ++ ':' :: jsonStr it.username ++
      ',' :: jsonStr "username_normalized".data ++ ':' ::
        jsonStr it.usernameNormalized) ++ [rbrace]

/-- Comma-separated concatenation for the JSON array. -/
def jsonCommaSep : List (List Char) → List Char
  | [] => []
  | [x] => x
  | x :: xs => x ++ ',' :: jsonCommaSep xs

/-- json.Marshal of the index slice.  Marshalling this struct type cannot
fail (strings always marshal), so it is modelled as total. -/
def jsonOfIndex (items : List IndexItem) : List Char :=
  '[' :: jsonCommaSep (items.map jsonOfItem) ++ [']']

/-- The external `gpg --encrypt --armor -r id...` process as an oracle: the
argument list and the stdin bytes determine the armored ciphertext on stdout,
or a failure (non-zero exit, missing binary, ...). -/
def GpgOracle : Type := List (List Char) → List Char → Except (List Char) (List Char)

/-- os/exec: `cmd.Run()` is `Start()` followed by `Wait()`.  The Go Load
calls `cmd.Run()` and then `cmd.Wait()` again; the second Wait finds
`ProcessState` already set and returns this error unconditionally. -/
def waitAfterRun : Except (List Char) Unit :=
  .error "exec: Wait was already called".data

/-- Go Load: walk the store, build the index and secrets from the matched
files, read the recipients, marshal the index, run gpg over it, and (on the
path the duplicated Wait makes unreachable) install `{index, secrets,
loaded}` as the new state.  Every error return happens before any field of
`v` is assigned. -/
def Load (fs : GoFS) (gpg : GpgOracle) (nfkd : NfkdOracle) (v : SecretsResource) :
    Except (List Char) SecretsResource :=
  match fs.walkResult with
  | .error e => .error ("issue while discovering secrets: ".data ++ e)
  | .ok filenames =>
    match buildEntries nfkd fs v.store filenames [] [] with
    | .error e => .error e
    | .ok (index, secrets) =>
      match readIDs fs v.store with
      | .error e => .error ("unable to load .gpg-id: ".data ++ e)
      | .ok ids =>
        match gpg (gpgArgs ids) (jsonOfIndex index) with
        | .error e => .error ("unable to run gpg command to encrypt index: ".data ++ e)
        | .ok out =>
          match waitAfterRun with
          | .error e => .error ("unable to encrypt index: ".data ++ e)
          | .ok _ => .ok { v with loaded := true, index := out, secrets := secrets }

/-- The List handler's interaction with the cache, as seen by one request:
under the read lock, `ensureLoaded` checks `loaded` and calls Load when
unset; on success the request answers from the freshly written index, on
failure it reports "unable to load password store" and the state is
unchanged. -/
def listQuery (fs : GoFS) (gpg : GpgOracle) (nfkd : NfkdOracle)
    (v : SecretsResource) : SecretsResource × Except (List Char) (List Char) :=
  if v.loaded then (v, .ok v.index)
  else
    match Load fs gpg nfkd v with
    | .error e => (v, .error ("unable to load password store: ".data ++ e))
    | .ok v2 => (v2, .ok v2.index)

/-! ## The lazy-load protocol under the RWMutex (List / Show + ensureLoaded + Load)

A small-step machine for two concurrent List/Show requests against a
resource with no snapshot loaded (`loaded = false`), in a store where every
rebuild stage up to and including the gpg invocation succeeds (the scenario
of the at-most-one-rebuild property).  Each request executes the code path

  RLock, read v.loaded (false), RUnlock, Load: walk and start gpg,
  (Load returns the duplicated-Wait error), deferred RLock,
  List's deferred RUnlock, 500 response.

The walk and the gpg invocation run with no lock held: `ensureLoaded`
releases the read lock before calling Load, and Load only takes the write
lock for the final field assignment, which the duplicated `cmd.Wait()` error
return makes unreachable (so `loaded` never changes and the write lock is
never taken).  `sync.RWMutex` therefore degenerates to a plain reader count
here; `RLock` can always proceed because no writer ever holds or requests
the lock in these executions. -/

/-- Program counter of one request: the next action it will take. -/
inductive GPc where
  | rlockQ
  | checkQ
  | runlQ
  | walkQ
  | gpgQ
  | relockQ
  | errUnlQ
  | doneErr
  | readQ
  | okUnlQ
  | doneOk
deriving DecidableEq

/-- Machine state: the two program counters, the reader count of the
RWMutex, and the shared `loaded` flag. -/
structure GConfig where
  pc0 : GPc
  pc1 : GPc
  readers : Nat
  loaded : Bool
deriving DecidableEq

/-- One transition of a single request.  `none` means the request cannot
move (finished, or — unreachably — an unlock with no lock held). -/
def holdStep (pc : GPc) (readers : Nat) (loaded : Bool) : Option (GPc × Nat) :=
  match pc with
  | .rlockQ => some (.checkQ, readers + 1)
  | .checkQ => some (if loaded then .readQ else .runlQ, readers)
  | .runlQ =>
    (match readers with
     | r + 1 => some (.walkQ, r)
     | 0 => none)
  | .walkQ => some (.gpgQ, readers)
  | .gpgQ => some (.relockQ, readers)
  | .relockQ => some (.errUnlQ, readers + 1)
  | .errUnlQ =>
    (match readers with
     | r + 1 => some (.doneErr, r)
     | 0 => none)
  | .readQ => some (.okUnlQ, readers)
  | .okUnlQ =>
    (match readers with
     | r + 1 => some (.doneOk, r)
     | 0 => none)
  | .doneErr => none
  | .doneOk => none

/-- Step of the whole machine: schedule request 0 (`g = false`) or request 1
(`g = true`). -/
def goStep (c : GConfig) (g : Bool) : Option GConfig :=
  if g then
    match holdStep c.pc1 c.readers c.loaded with
    | some (pc, rd) => some { c with pc1 := pc, readers := rd }
    | none => none
  else
    match holdStep c.pc0 c.readers c.loaded with
    | some (pc, rd) => some { c with pc0 := pc, readers := rd }
    | none => none

/-- Scheduled step; a request that cannot move leaves the state unchanged. -/
def stepD (c : GConfig) (g : Bool) : GConfig := (goStep c g).getD c

/-- Both requests arrive while no snapshot is loaded. -/
def initConfig : GConfig :=
  { pc0 := .rlockQ, pc1 := .rlockQ, readers := 0, loaded := false }

/-- Run a schedule (a list of request choices) from the initial state. -/
def runSched (sched : List Bool) : GConfig := sched.foldl stepD initConfig

/-- Has this request already executed its Walker pass? -/
def pastWalk : GPc → Bool
  | .gpgQ | .relockQ | .errUnlQ | .doneErr => true
  | _ => false

/-- Has this request already invoked the external gpg process? -/
def pastGpg : GPc → Bool
  | .relockQ | .errUnlQ | .doneErr => true
  | _ => false

/-- Number of Walker passes executed so far. -/
def walkCount (c : GConfig) : Nat :=
  (if pastWalk c.pc0 then 1 else 0) + (if pastWalk c.pc1 then 1 else 0)

/-- Number of gpg invocations executed so far. -/
def gpgCount (c : GConfig) : Nat :=
  (if pastGpg c.pc0 then 1 else 0) + (if pastGpg c.pc1 then 1 else 0)

/-- Request finished (with either response). -/
def isDone : GPc → Bool
  | .doneErr | .doneOk => true
  | _ => false

/-- Both requests finished. -/
def bothDone (c : GConfig) : Bool := isDone c.pc0 && isDone c.pc1

/-- How many read locks a request at this pc holds. -/
def rlockHeld : GPc → Nat
  | .checkQ | .runlQ | .errUnlQ | .readQ | .okUnlQ => 1
  | _ => 0

/-- The pcs of the error path (the loaded-observed-true states never occur
since `loaded` stays false). -/
def errPathPcs : List GPc :=
  [.rlockQ, .checkQ, .runlQ, .walkQ, .gpgQ, .relockQ, .errUnlQ, .doneErr]

/-- An over-approximation of the reachable states, used as an inductive
invariant: both pcs on the error path, the reader count determined by the
pcs, `loaded` still false. -/
def reachSet : List GConfig :=
  errPathPcs.flatMap (fun a =>
    errPathPcs.map (fun b =>
      { pc0 := a, pc1 := b, readers := rlockHeld a + rlockHeld b, loaded := false }))

/-- Decidable membership in `reachSet`. -/
def inReachSet (c : GConfig) : Bool := reachSet.any (fun x => decide (x = c))

/-- A schedule interleaving the two requests: both take the read lock and
observe `loaded == false` before either starts its rebuild, then each runs
its own walk and gpg invocation to completion. -/
def interleavedSched : List Bool :=
  [false, false, false, true, true, true,
   false, false, false, false, true, true, true, true]

/-! ## Concrete fixtures used to instantiate the theorems -/

/-- A store with one secret file and a one-recipient `.gpg-id`
("keyA" and a newline). -/
def exFS : GoFS :=
  { walkResult := .ok ["/store/example.com/alice.gpg".data]
    readFile := fun p =>
      if p = "/store/example.com/alice.gpg".data then some [1, 2, 3]
      else if p = "/store/.gpg-id".data then some [107, 101, 121, 65, 10]
      else none }

/-- A store whose walk finds nothing and whose files are all absent (no
`.gpg-id` in particular). -/
def emptyFS : GoFS := { walkResult := .ok [], readFile := fun _ => none }

/-- A fresh, unloaded resource over /store. -/
def exResource : SecretsResource :=
  { store := "/store".data, loaded := false, index := [], secrets := [] }

/-- A gpg oracle that always succeeds. -/
def okGpg : GpgOracle := fun _ _ => .ok "ARMORED".data

/-- An NFKD oracle that always fails. -/
def failNfkd : NfkdOracle := fun _ => .error ()

/-! # Theorems -/

/-- C5: path decomposition.  For store root /store,
/store/example.com/alice.gpg decomposes to domain "example.com",
path "example.com", username "alice"; /store/work/example.com/alice.gpg
decomposes to domain "example.com", path "work/example.com", username
"alice". -/
theorem path_decomposition_examples :
    (secretDomain "/store".data "/store/example.com/alice.gpg".data = "example.com".data ∧
     secretRelPath "/store".data "/store/example.com/alice.gpg".data = "example.com".data ∧
     secretUsername "/store".data "/store/example.com/alice.gpg".data = "alice".data) ∧
    (secretDomain "/store".data "/store/work/example.com/alice.gpg".data = "example.com".data ∧
     secretRelPath "/store".data "/store/work/example.com/alice.gpg".data = "work/example.com".data ∧
     secretUsername "/store".data "/store/work/example.com/alice.gpg".data = "alice".data) := by
  decide

/-- C9: a file named exactly ".gpg" below the first directory level is
accepted by the walker's *.gpg pattern, and /store/a/.gpg is indexed with
username "a" (the parent directory's name, not the empty string) and path
"a", the same identifier as a genuine /store/a/a.gpg. -/
theorem dot_gpg_file_indexed :
    matchStarDotGpg ".gpg".data = true ∧
    secretRelPath "/store".data "/store/a/.gpg".data = "a".data ∧
    secretUsername "/store".data "/store/a/.gpg".data = "a".data ∧
    secretRelPath "/store".data "/store/a/.gpg".data =
      secretRelPath "/store".data "/store/a/a.gpg".data ∧
    secretUsername "/store".data "/store/a/.gpg".data =
      secretUsername "/store".data "/store/a/a.gpg".data ∧
    secretUsername "/store".data "/store/a/.gpg".data ≠ [] := by
  decide

/-! ## C1: the lazy-load protocol under concurrency -/

/-- Bool membership in `reachSet` agrees with list membership. -/
theorem inReachSet_iff (c : GConfig) : inReachSet c = true ↔ c ∈ reachSet := by
  simp [inReachSet, List.any_eq_true]

/-- `reachSet` is closed under scheduled steps. -/
theorem reachSet_closed :
    (reachSet.all fun c => inReachSet (stepD c false) && inReachSet (stepD c true)) = true := by
  decide

/-- Every configuration in `reachSet` with both requests finished shows two
Walker passes, two gpg invocations and two error responses. -/
theorem reachSet_final :
    (reachSet.all fun c => !bothDone c ||
      (decide (walkCount c = 2) && decide (gpgCount c = 2) &&
       decide (c.pc0 = GPc.doneErr) && decide (c.pc1 = GPc.doneErr))) = true := by
  decide

/-- Every schedule keeps the machine inside `reachSet`. -/
theorem runSched_mem (sched : List Bool) : inReachSet (runSched sched) = true := by
  have hstep : ∀ c : GConfig, inReachSet c = true → ∀ g, inReachSet (stepD c g) = true := by
    intro c hc g
    have hall := List.all_eq_true.mp reachSet_closed c ((inReachSet_iff c).mp hc)
    simp only [Bool.and_eq_true] at hall
    rcases hall with ⟨h0, h1⟩
    cases g
    · exact h0
    · exact h1
  have key : ∀ (sched : List Bool) (c : GConfig), inReachSet c = true →
      inReachSet (sched.foldl stepD c) = true := by
    intro sched
    induction sched with
    | nil => intro c hc; exact hc
    | cons g rest ih => intro c hc; exact ih (stepD c g) (hstep c hc g)
  exact key sched initConfig (by decide)

/-- C1 (amended): two concurrent List/Show queries arriving while no
snapshot is loaded each independently execute the full rebuild.  In every
complete execution, two Walker passes and two invocations of the external
gpg encryption step occur (not one), and both queries observe the same
failure (the duplicated-Wait error response); no execution installs a
snapshot. -/
theorem concurrent_queries_each_rebuild (sched : List Bool)
    (h : bothDone (runSched sched) = true) :
    walkCount (runSched sched) = 2 ∧ gpgCount (runSched sched) = 2 ∧
    (runSched sched).pc0 = GPc.doneErr ∧ (runSched sched).pc1 = GPc.doneErr := by
  have hmem := (inReachSet_iff _).mp (runSched_mem sched)
  have hall := List.all_eq_true.mp reachSet_final _ hmem
  rw [h] at hall
  simp only [Bool.not_true, Bool.false_or, Bool.and_eq_true, decide_eq_true_eq] at hall
  exact ⟨hall.1.1.1, hall.1.1.2, hall.1.2, hall.2⟩

/-- C1 counterexample: a complete execution of two concurrent queries on an
empty cache — both take the read lock and observe the absent snapshot before
either rebuilds — in which two Walker passes and two gpg invocations occur,
refuting "exactly one Walker pass and exactly one invocation of the external
gpg encryption step". -/
theorem two_queries_two_gpg_runs :
    bothDone (runSched interleavedSched) = true ∧
    walkCount (runSched interleavedSched) = 2 ∧
    gpgCount (runSched interleavedSched) = 2 ∧
    ¬ (walkCount (runSched interleavedSched) = 1 ∧
       gpgCount (runSched interleavedSched) = 1) := by
  decide

/-- Witness for `concurrent_queries_each_rebuild` at a concrete schedule. -/
theorem concurrent_queries_each_rebuild_witness :
    walkCount (runSched interleavedSched) = 2 ∧
    gpgCount (runSched interleavedSched) = 2 ∧
    (runSched interleavedSched).pc0 = GPc.doneErr ∧
    (runSched interleavedSched).pc1 = GPc.doneErr :=
  concurrent_queries_each_rebuild interleavedSched (by decide)

/-! ## C6 / C10: the identifier normalizer -/

/-- The ASCII filter on the UTF-8 bytes of one character: an ASCII character
survives as its own code point, every byte of a multi-byte character is at
least 0x80 and is dropped. -/
theorem utf8_filter_ascii (c : Char) :
    (utf8EncodeChar c).filter (fun b => decide (b < 128)) =
      if c.toNat < 128 then [c.toNat] else [] := by
  simp only [utf8EncodeChar]
  by_cases h1 : c.toNat < 128
  · simp [h1]
  · simp only [if_neg h1]
    by_cases h2 : c.toNat < 2048
    · have a1 : ¬ (192 + c.toNat / 64 < 128) := by omega
      have a2 : ¬ (128 + c.toNat % 64 < 128) := by omega
      simp [if_pos h2, a1, a2]
    · simp only [if_neg h2]
      by_cases h3 : c.toNat < 65536
      · have a1 : ¬ (224 + c.toNat / 4096 < 128) := by omega
        have a2 : ¬ (128 + c.toNat / 64 % 64 < 128) := by omega
        have a3 : ¬ (128 + c.toNat % 64 < 128) := by omega
        simp [if_pos h3, a1, a2, a3]
      · have a1 : ¬ (240 + c.toNat / 262144 < 128) := by omega
        have a2 : ¬ (128 + c.toNat / 4096 % 64 < 128) := by omega
        have a3 : ¬ (128 + c.toNat / 64 % 64 < 128) := by omega
        have a4 : ¬ (128 + c.toNat % 64 < 128) := by omega
        simp [if_neg h3, a1, a2, a3, a4]

/-- The byte-level ASCII filter of the Go loop agrees with the code-point
filter, character list by character list. -/
theorem flatten_filter_ascii (l : List Char) :
    (((l.map utf8EncodeChar).flatten).filter (fun b => decide (b < 128))).map Char.ofNat =
      l.filter (fun c => decide (c.toNat < 128)) := by
  induction l with
  | nil => rfl
  | cons c r ih =>
    simp only [List.map_cons, List.flatten_cons, List.filter_append, List.map_append, ih,
      utf8_filter_ascii]
    by_cases h : c.toNat < 128
    · simp [h, List.filter_cons, Char.ofNat_toNat]
    · simp [h, List.filter_cons]

/-- Go normalize computes the spec's code-point filter (shared helper). -/
theorem normalize_eq_filter (nfkd : NfkdOracle) (s : List Char) :
    normalize nfkd s = normalizeSpec nfkd s := by
  unfold normalize normalizeSpec
  cases h : nfkd s with
  | error e => rfl
  | ok rs => exact flatten_filter_ascii rs

/-- C6: for every string, normalize equals the NFKD decomposition with every
code point ≥ 0x80 removed; normalize("Ångström") = "Angstrom" under the
NFKD table fragment for those characters; and a failing NFKD transform
yields the empty string. -/
theorem normalize_matches_spec :
    (∀ (nfkd : NfkdOracle) (s : List Char), normalize nfkd s = normalizeSpec nfkd s) ∧
    normalize nfkdLatin "Ångström".data = "Angstrom".data ∧
    (∀ (nfkd : NfkdOracle) (s : List Char), nfkd s = .error () → normalize nfkd s = []) := by
  refine ⟨normalize_eq_filter, by decide, ?_⟩
  intro nfkd s h
  unfold normalize
  rw [h]

/-- Witness for the failure clause of `normalize_matches_spec`. -/
theorem normalize_matches_spec_witness : normalize failNfkd "x".data = [] :=
  normalize_matches_spec.2.2 failNfkd "x".data rfl

/-- The fragment table fixes ASCII strings (real NFKD does the same: ASCII
code points have no decomposition). -/
theorem nfkdLatin_fixes_ascii (t : List Char) (h : ∀ c ∈ t, c.toNat < 128) :
    nfkdLatin t = .ok t := by
  unfold nfkdLatin
  congr 1
  induction t with
  | nil => rfl
  | cons c r ih =>
    have hc : c.toNat < 128 := h c (List.mem_cons_self c r)
    have hr : ∀ x ∈ r, x.toNat < 128 := fun x hx => h x (List.mem_cons_of_mem c hx)
    have h1 : c ≠ 'Å' := by intro he; rw [he] at hc; exact absurd hc (by decide)
    have h2 : c ≠ 'ö' := by intro he; rw [he] at hc; exact absurd hc (by decide)
    simp only [List.map_cons, List.flatten_cons, ih hr, nfkdCharLatin, if_neg h1, if_neg h2]
    rfl

/-- C10: normalize is idempotent for any NFKD transform that fixes ASCII
strings (as the real one does), because its output contains only code points
below 0x80. -/
theorem normalize_idempotent (nfkd : NfkdOracle)
    (hascii : ∀ t, (∀ c ∈ t, c.toNat < 128) → nfkd t = .ok t) (s : List Char) :
    normalize nfkd (normalize nfkd s) = normalize nfkd s := by
  have hout : ∀ c ∈ normalize nfkd s, c.toNat < 128 := by
    rw [normalize_eq_filter]
    unfold normalizeSpec
    cases h : nfkd s with
    | error e => intro c hc; simp at hc
    | ok rs =>
      intro c hc
      rw [List.mem_filter] at hc
      exact of_decide_eq_true hc.2
  rw [normalize_eq_filter nfkd (normalize nfkd s)]
  unfold normalizeSpec
  rw [hascii _ hout]
  exact List.filter_eq_self.mpr (fun c hc => decide_eq_true (hout c hc))

/-- Witness for `normalize_idempotent` with the fragment table and the
spec's example string. -/
theorem normalize_idempotent_witness :
    normalize nfkdLatin (normalize nfkdLatin "Ångström".data) =
      normalize nfkdLatin "Ångström".data :=
  normalize_idempotent nfkdLatin (fun t ht => nfkdLatin_fixes_ascii t ht) "Ångström".data

/-! ## C3 / C2: Load failure and the duplicated Wait -/

/-- C3: a rebuild that fails at any stage leaves the resource untouched —
index, secrets and the loaded flag keep their previous values (the previous
snapshot or the empty state) — the caller receives the Unavailable response,
and the next query makes the whole rebuild attempt again (the state it sees
is identical). -/
theorem failed_load_preserves_state (fs : GoFS) (gpg : GpgOracle) (nfkd : NfkdOracle)
    (v : SecretsResource) (e : List Char) (hl : v.loaded = false)
    (he : Load fs gpg nfkd v = .error e) :
    listQuery fs gpg nfkd v = (v, .error ("unable to load password store: ".data ++ e)) ∧
    listQuery fs gpg nfkd (listQuery fs gpg nfkd v).1 = listQuery fs gpg nfkd v := by
  have h1 : listQuery fs gpg nfkd v =
      (v, .error ("unable to load password store: ".data ++ e)) := by
    simp [listQuery, hl, he]
  refine ⟨h1, ?_⟩
  rw [h1]
  exact h1

/-- Witness for `failed_load_preserves_state`: a store without a `.gpg-id`
file, queried while nothing is loaded. -/
theorem failed_load_preserves_state_witness :
    listQuery emptyFS okGpg nfkdLatin exResource =
      (exResource, .error ("unable to load password store: ".data ++
        ("unable to load .gpg-id: ".data ++
          ("open ".data ++ goPathJoin "/store".data ".gpg-id".data ++
            ": no such file or directory".data)))) :=
  (failed_load_preserves_state emptyFS okGpg nfkdLatin exResource _ rfl rfl).1

/-- C2 (code bug): Load runs `cmd.Run()` and then calls `cmd.Wait()` again,
which always fails with "exec: Wait was already called".  So even when every
rebuild stage succeeds — walk, reading each secret, .gpg-id, serialization,
and the external gpg call — Load returns an error, never installs the
snapshot, never sets `loaded`, and the triggering List query answers
Unavailable instead of the encrypted index. -/
theorem load_never_installs (fs : GoFS) (gpg : GpgOracle) (nfkd : NfkdOracle)
    (v : SecretsResource) (fns : List (List Char)) (idx : List IndexItem)
    (secs : List (secretName × List Char)) (ids : List (List Char)) (out : List Char)
    (hw : fs.walkResult = .ok fns)
    (hb : buildEntries nfkd fs v.store fns [] [] = .ok (idx, secs))
    (hr : readIDs fs v.store = .ok ids)
    (hg : gpg (gpgArgs ids) (jsonOfIndex idx) = .ok out)
    (hl : v.loaded = false) :
    Load fs gpg nfkd v =
      .error ("unable to encrypt index: ".data ++ "exec: Wait was already called".data) ∧
    listQuery fs gpg nfkd v =
      (v, .error ("unable to load password store: ".data ++
        ("unable to encrypt index: ".data ++ "exec: Wait was already called".data))) := by
  have hload : Load fs gpg nfkd v =
      .error ("unable to encrypt index: ".data ++ "exec: Wait was already called".data) := by
    unfold Load
    simp only [hw, hb, hr, hg, waitAfterRun]
  refine ⟨hload, ?_⟩
  simp [listQuery, hl, hload]

/-- Witness for `load_never_installs`: the one-secret store, a succeeding
gpg oracle, everything readable — Load still fails. -/
theorem load_never_installs_witness :
    Load exFS okGpg nfkdLatin exResource =
      .error ("unable to encrypt index: ".data ++ "exec: Wait was already called".data) :=
  (load_never_installs exFS okGpg nfkdLatin exResource _ _ _ _ _ rfl rfl rfl rfl rfl).1

/-! ## C4: index identifiers versus secrets-map keys -/

/-- Keys surviving the overwrite filter of a Go map assignment. -/
theorem filterKeys_mem (k pu : secretName) (m : List (secretName × List Char)) :
    pu ∈ (m.filter (fun kv => decide (kv.1 ≠ k))).map Prod.fst ↔
      pu ∈ m.map Prod.fst ∧ pu ≠ k := by
  induction m with
  | nil => simp
  | cons kv rest ih =>
    by_cases h : kv.1 = k
    · rw [List.filter_cons, if_neg (by simp [h])]
      rw [ih, List.map_cons, List.mem_cons]
      constructor
      · exact fun hp => ⟨Or.inr hp.1, hp.2⟩
      · rintro ⟨hp | hp, hne⟩
        · exact absurd (hp.trans h) hne
        · exact ⟨hp, hne⟩
    · rw [List.filter_cons, if_pos (by simp [h])]
      rw [List.map_cons, List.mem_cons, List.map_cons, List.mem_cons, ih]
      constructor
      · rintro (hp | hp)
        · exact ⟨Or.inl hp, by rw [hp]; exact h⟩
        · exact ⟨Or.inr hp.1, hp.2⟩
      · rintro ⟨hp | hp, hne⟩
        · exact Or.inl hp
        · exact Or.inr ⟨hp, hne⟩

/-- Keys after a Go map assignment: the new key plus the old keys. -/
theorem mapPut_keys (k : secretName) (v : List Char)
    (m : List (secretName × List Char)) (pu : secretName) :
    pu ∈ (mapPut k v m).map Prod.fst ↔ pu = k ∨ pu ∈ m.map Prod.fst := by
  have h1 : (mapPut k v m).map Prod.fst =
      (m.filter (fun kv => decide (kv.1 ≠ k))).map Prod.fst ++ [k] := by
    simp [mapPut]
  rw [h1, List.mem_append, filterKeys_mem, List.mem_singleton]
  constructor
  · rintro (⟨hm, _⟩ | h)
    · exact Or.inr hm
    · exact Or.inl h
  · intro h
    by_cases hpk : pu = k
    · exact Or.inr hpk
    · rcases h with h | hm
      · exact absurd h hpk
      · exact Or.inl ⟨hm, hpk⟩

/-- The loop invariant behind C4: each iteration appends one index item and
stores one secrets entry under the same (path, username) key, so the
identifier sets stay equal. -/
theorem buildEntries_keys (nfkd : NfkdOracle) (fs : GoFS) (store : List Char) :
    ∀ (fns : List (List Char)) (accI : List IndexItem)
      (accS : List (secretName × List Char)) (idx : List IndexItem)
      (secs : List (secretName × List Char)),
      buildEntries nfkd fs store fns accI accS = .ok (idx, secs) →
      (∀ pu : secretName,
        pu ∈ accI.map (fun it => secretName.mk it.path it.username) ↔
          pu ∈ accS.map Prod.fst) →
      ∀ pu : secretName,
        pu ∈ idx.map (fun it => secretName.mk it.path it.username) ↔
          pu ∈ secs.map Prod.fst := by
  intro fns
  induction fns with
  | nil =>
    intro accI accS idx secs h hinv
    simp only [buildEntries, Except.ok.injEq, Prod.mk.injEq] at h
    rw [← h.1, ← h.2]
    exact hinv
  | cons filename rest ih =>
    intro accI accS idx secs h hinv
    simp only [buildEntries] at h
    cases hrs : readSecret fs filename with
    | error e =>
      rw [hrs] at h
      exact absurd h (by simp)
    | ok text =>
      rw [hrs] at h
      refine ih _ _ idx secs h ?_
      intro pu
      rw [List.map_append, List.mem_append, mapPut_keys, hinv pu]
      simp [or_comm]

/-- C4: the (path, username) identifiers listed by the index Load builds are
exactly the keys of the secrets map built in the same pass (duplicate
identifiers collapse in both, since the map assignment overwrites); the pair
is then handed to the install step as one unit. -/
theorem index_matches_secrets_keys (nfkd : NfkdOracle) (fs : GoFS) (store : List Char)
    (fns : List (List Char)) (idx : List IndexItem)
    (secs : List (secretName × List Char))
    (h : buildEntries nfkd fs store fns [] [] = .ok (idx, secs)) (pu : secretName) :
    pu ∈ idx.map (fun it => secretName.mk it.path it.username) ↔
      pu ∈ secs.map Prod.fst :=
  buildEntries_keys nfkd fs store fns [] [] idx secs h (fun _ => by simp) pu

/-- Witness for `index_matches_secrets_keys` on the one-secret store. -/
theorem index_matches_secrets_keys_witness :
    ∃ (idx : List IndexItem) (secs : List (secretName × List Char)),
      buildEntries nfkdLatin exFS "/store".data
        ["/store/example.com/alice.gpg".data] [] [] = .ok (idx, secs) ∧
      ∀ pu : secretName,
        (pu ∈ idx.map (fun it => secretName.mk it.path it.username) ↔
          pu ∈ secs.map Prod.fst) :=
  ⟨_, _, rfl, fun pu =>
    index_matches_secrets_keys nfkdLatin exFS "/store".data
      ["/store/example.com/alice.gpg".data] _ _ rfl pu⟩

/-! ## C8: the recipient loader -/

/-- splitNl never returns the empty list. -/
theorem splitNl_ne_nil (l : List Char) : splitNl l ≠ [] := by
  cases l with
  | nil => simp [splitNl]
  | cons c r =>
    by_cases h : c = '\n'
    · simp [splitNl, h]
    · simp only [splitNl, if_neg h]
      cases h2 : splitNl r <;> simp

/-- The scanner's filtered token stream equals the filtered line list; `cur`
is the pending partial line (reversed). -/
theorem scanTokens_filter (l : List Char) : ∀ cur : List Char,
    (scanTokens cur l).filter (fun id => decide (id ≠ [])) =
      ((match splitNl l with
        | [] => [cur.reverse]
        | x :: xs => (cur.reverse ++ x) :: xs).map dropCR).filter
        (fun id => decide (id ≠ [])) := by
  induction l with
  | nil =>
    intro cur
    by_cases h : cur = []
    · subst h
      rfl
    · simp [scanTokens, splitNl, h]
  | cons c r ih =>
    intro cur
    obtain ⟨x, xs, hx⟩ : ∃ x xs, splitNl r = x :: xs := by
      cases h2 : splitNl r with
      | nil => exact absurd h2 (splitNl_ne_nil r)
      | cons x xs => exact ⟨x, xs, rfl⟩
    by_cases h : c = '\n'
    · subst h
      have ihr := ih []
      rw [hx] at ihr
      simp only [List.reverse_nil, List.nil_append] at ihr
      rw [scanTokens, if_pos rfl, splitNl, if_pos rfl, hx]
      simp only [List.append_nil, List.map_cons, List.filter_cons]
      rw [ihr]
      simp only [List.map_cons, List.filter_cons]
    · rw [scanTokens, if_neg h, splitNl, if_neg h, hx, ih (c :: cur), hx]
      simp [List.append_assoc]

/-- scanIDs computes the spec's non-empty-lines function (shared helper). -/
theorem scanIDs_eq_nonEmptyLines (content : List Char) :
    scanIDs content = nonEmptyLines content := by
  unfold scanIDs nonEmptyLines
  have hmain := scanTokens_filter content []
  obtain ⟨x, xs, hx⟩ : ∃ x xs, splitNl content = x :: xs := by
    cases h2 : splitNl content with
    | nil => exact absurd h2 (splitNl_ne_nil content)
    | cons x xs => exact ⟨x, xs, rfl⟩
  rw [hx] at hmain ⊢
  simpa using hmain

/-- The gpg argument list is `--encrypt --armor` then `-r id` pairs in
recipient order (shared helper). -/
theorem gpgArgs_flat (ids : List (List Char)) :
    gpgArgs ids =
      "--encrypt".data :: "--armor".data :: ids.flatMap (fun id => ["-r".data, id]) := by
  unfold gpgArgs
  have key : ∀ (l : List (List Char)) (start : List (List Char)),
      l.foldl (fun args id => args ++ ["-r".data, id]) start =
        start ++ l.flatMap (fun id => ["-r".data, id]) := by
    intro l
    induction l with
    | nil => intro start; simp
    | cons i rest ih => intro start; simp [List.foldl_cons, ih]
  rw [key]
  rfl

/-- C8: the recipient loader returns exactly the non-empty lines of .gpg-id,
in file order, without deduplication or sorting; the rebuild passes them to
the gpg invocation in that same order, one `-r id` pair per recipient; and a
failure to open or read .gpg-id is a hard rebuild failure. -/
theorem recipient_order_preserved :
    (∀ content, scanIDs content = nonEmptyLines content) ∧
    (∀ ids, gpgArgs ids =
      "--encrypt".data :: "--armor".data :: ids.flatMap (fun id => ["-r".data, id])) ∧
    (∀ (fs : GoFS) (gpg : GpgOracle) (nfkd : NfkdOracle) (v : SecretsResource)
       (fns : List (List Char)) (idx : List IndexItem)
       (secs : List (secretName × List Char)) (e : List Char),
      fs.walkResult = .ok fns →
      buildEntries nfkd fs v.store fns [] [] = .ok (idx, secs) →
      readIDs fs v.store = .error e →
      Load fs gpg nfkd v = .error ("unable to load .gpg-id: ".data ++ e)) := by
  refine ⟨scanIDs_eq_nonEmptyLines, gpgArgs_flat, ?_⟩
  intro fs gpg nfkd v fns idx secs e hw hb hr
  unfold Load
  simp only [hw, hb, hr]

/-- Witness for `recipient_order_preserved`: the store with no `.gpg-id`. -/
theorem recipient_order_preserved_witness :
    Load emptyFS okGpg nfkdLatin exResource =
      .error ("unable to load .gpg-id: ".data ++
        ("open ".data ++ goPathJoin "/store".data ".gpg-id".data ++
          ": no such file or directory".data)) :=
  recipient_order_preserved.2.2 emptyFS okGpg nfkdLatin exResource [] [] [] _ rfl rfl rfl

/-! ## C7: the armor round-trip -/

/-- The base64 alphabet characters are never '='. -/
theorem b64Chr_ne_pad (n : Nat) : b64Chr n ≠ '=' := by
  unfold b64Chr
  rcases Nat.lt_or_ge n 64 with h | h
  · exact (by decide : ∀ m < 64, b64Alphabet.getD m 'A' ≠ '=') n h
  · rw [List.getD_eq_default _ _ (by rw [(by decide : b64Alphabet.length = 64)]; omega)]
    decide

/-- The base64 alphabet characters are never a newline. -/
theorem b64Chr_ne_nl (n : Nat) : b64Chr n ≠ '\n' := by
  unfold b64Chr
  rcases Nat.lt_or_ge n 64 with h | h
  · exact (by decide : ∀ m < 64, b64Alphabet.getD m 'A' ≠ '\n') n h
  · rw [List.getD_eq_default _ _ (by rw [(by decide : b64Alphabet.length = 64)]; omega)]
    decide

/-- Decoding inverts the alphabet on six-bit values. -/
theorem b64DecChr_enc : ∀ n < 64, b64DecChr (b64Chr n) = some n := by
  decide

/-- base64 decoding inverts base64 encoding on byte sequences. -/
theorem b64_roundtrip : ∀ b : List Nat, (∀ x ∈ b, x < 256) →
    b64Decode (b64Encode b) = some b := by
  intro b
  induction b using b64Encode.induct with
  | case1 => intro _; rfl
  | case2 a =>
    intro hb
    have ha : a < 256 := hb a (by simp)
    have h1 : a / 4 < 64 := by omega
    have h2 : a % 4 * 16 < 64 := by omega
    have e1 : a / 4 * 4 + a % 4 * 16 / 16 = a := by omega
    have e2 : a % 4 * 16 % 16 = 0 := by omega
    simp [b64Encode, b64Decode, b64DecChr_enc _ h1, b64DecChr_enc _ h2, e1, e2]
    omega
  | case3 a b =>
    intro hb
    have ha : a < 256 := hb a (by simp)
    have hb2 : b < 256 := hb b (by simp)
    have h1 : a / 4 < 64 := by omega
    have h2 : a % 4 * 16 + b / 16 < 64 := by omega
    have h3 : b % 16 * 4 < 64 := by omega
    have hne : b64Chr (b % 16 * 4) ≠ '=' := b64Chr_ne_pad _
    have e1 : a / 4 * 4 + (a % 4 * 16 + b / 16) / 16 = a := by omega
    have e2 : (a % 4 * 16 + b / 16) % 16 * 16 + b % 16 * 4 / 4 = b := by omega
    have e3 : b % 16 * 4 % 4 = 0 := by omega
    simp [b64Encode, b64Decode, b64DecChr_enc _ h1, b64DecChr_enc _ h2,
      b64DecChr_enc _ h3, hne, e1, e2, e3]
    omega
  | case4 a b c rest ih =>
    intro hb
    have ha : a < 256 := hb a (by simp)
    have hb2 : b < 256 := hb b (by simp)
    have hc : c < 256 := hb c (by simp)
    have hr : ∀ x ∈ rest, x < 256 := fun x hx => hb x (by simp [hx])
    have h1 : a / 4 < 64 := by omega
    have h2 : a % 4 * 16 + b / 16 < 64 := by omega
    have h3 : b % 16 * 4 + c / 64 < 64 := by omega
    have h4 : c % 64 < 64 := by omega
    have hne3 : b64Chr (b % 16 * 4 + c / 64) ≠ '=' := b64Chr_ne_pad _
    have hne4 : b64Chr (c % 64) ≠ '=' := b64Chr_ne_pad _
    have e1 : a / 4 * 4 + (a % 4 * 16 + b / 16) / 16 = a := by omega
    have e2 : (a % 4 * 16 + b / 16) % 16 * 16 + (b % 16 * 4 + c / 64) / 4 = b := by omega
    have e3 : (b % 16 * 4 + c / 64) % 4 * 64 + c % 64 = c := by omega
    simp [b64Encode, b64Decode, b64DecChr_enc _ h1, b64DecChr_enc _ h2,
      b64DecChr_enc _ h3, b64DecChr_enc _ h4, hne3, hne4, ih hr, e1, e2, e3]

/-- Every character emitted by the base64 encoder is an alphabet character or
the padding character, hence never a newline. -/
theorem b64Encode_ne_nl : ∀ (b : List Nat), ∀ x ∈ b64Encode b, x ≠ '\n' := by
  intro b
  induction b using b64Encode.induct with
  | case1 => intro x hx; simp [b64Encode] at hx
  | case2 a =>
    intro x hx
    simp only [b64Encode, List.mem_cons, List.not_mem_nil, or_false] at hx
    rcases hx with h | h | h | h <;> subst h
    · exact b64Chr_ne_nl _
    · exact b64Chr_ne_nl _
    · decide
    · decide
  | case3 a b =>
    intro x hx
    simp only [b64Encode, List.mem_cons, List.not_mem_nil, or_false] at hx
    rcases hx with h | h | h | h <;> subst h
    · exact b64Chr_ne_nl _
    · exact b64Chr_ne_nl _
    · exact b64Chr_ne_nl _
    · decide
  | case4 a b c rest ih =>
    intro x hx
    simp only [b64Encode, List.mem_cons] at hx
    rcases hx with h | h | h | h | h
    · subst h; exact b64Chr_ne_nl _
    · subst h; exact b64Chr_ne_nl _
    · subst h; exact b64Chr_ne_nl _
    · subst h; exact b64Chr_ne_nl _
    · exact ih x h

/-- The base64 stream is a concatenation of four-character groups, each
starting with an alphabet character. -/
theorem b64Encode_grouped : ∀ b : List Nat, ∃ gs : List (List Char),
    b64Encode b = gs.flatten ∧
      ∀ g ∈ gs, g.length = 4 ∧ ∃ n, g.head? = some (b64Chr n) := by
  intro b
  induction b using b64Encode.induct with
  | case1 => exact ⟨[], rfl, by simp⟩
  | case2 a =>
    refine ⟨[[b64Chr (a / 4), b64Chr (a % 4 * 16), '=', '=']], by simp [b64Encode], ?_⟩
    intro g hg
    simp only [List.mem_singleton] at hg
    subst hg
    exact ⟨rfl, a / 4, rfl⟩
  | case3 a b =>
    refine ⟨[[b64Chr (a / 4), b64Chr (a % 4 * 16 + b / 16), b64Chr (b % 16 * 4), '=']],
      by simp [b64Encode], ?_⟩
    intro g hg
    simp only [List.mem_singleton] at hg
    subst hg
    exact ⟨rfl, a / 4, rfl⟩
  | case4 a b c rest ih =>
    obtain ⟨gs, hgs, hprops⟩ := ih
    refine ⟨[b64Chr (a / 4), b64Chr (a % 4 * 16 + b / 16), b64Chr (b % 16 * 4 + c / 64),
      b64Chr (c % 64)] :: gs, by simp [b64Encode, hgs], ?_⟩
    intro g hg
    rcases List.mem_cons.mp hg with h | h
    · subst h
      exact ⟨rfl, a / 4, rfl⟩
    · exact hprops g h

/-- Chunking preserves the character stream. -/
theorem chunks64F_flatten : ∀ (fuel : Nat) (l : List Char), l.length ≤ fuel →
    (chunks64F fuel l).flatten = l := by
  intro fuel
  induction fuel with
  | zero =>
    intro l hl
    have h : l = [] := List.length_eq_zero.mp (Nat.le_zero.mp hl)
    subst h
    rfl
  | succ n ih =>
    intro l hl
    cases l with
    | nil => rfl
    | cons c r =>
      rw [chunks64F, List.flatten_cons,
        ih (r.drop 63) (by rw [List.length_drop]; simp at hl; omega)]
      simp [List.take_append_drop]

/-- Chunking preserves the character stream (at the standard fuel). -/
theorem chunks64_flatten (l : List Char) : (chunks64 l).flatten = l :=
  chunks64F_flatten l.length l le_rfl

/-- Characters of a chunk come from the chunked list. -/
theorem chunks64F_subset : ∀ (fuel : Nat) (l : List Char),
    ∀ ch ∈ chunks64F fuel l, ∀ x ∈ ch, x ∈ l := by
  intro fuel
  induction fuel with
  | zero =>
    intro l ch hch
    cases l <;> simp [chunks64F] at hch
  | succ n ih =>
    intro l ch hch
    cases l with
    | nil => simp [chunks64F] at hch
    | cons c r =>
      rw [chunks64F] at hch
      rcases List.mem_cons.mp hch with hc | hc
      · subst hc
        intro x hx
        rcases List.mem_cons.mp hx with h | h
        · simp [h]
        · exact List.mem_cons_of_mem _ (List.take_subset _ _ h)
      · intro x hx
        exact List.mem_cons_of_mem _ (List.drop_subset _ _ (ih (r.drop 63) ch hc x hx))

/-- Dropping whole groups: dropping 4k characters of a concatenation of
four-character groups drops k groups. -/
theorem flatten_drop_groups : ∀ (gs : List (List Char)) (k : Nat),
    (∀ g ∈ gs, g.length = 4) → gs.flatten.drop (4 * k) = (gs.drop k).flatten := by
  intro gs
  induction gs with
  | nil => intro k _; simp
  | cons g rest ih =>
    intro k hg
    cases k with
    | zero => simp
    | succ m =>
      have hlen : g.length = 4 := hg g (List.mem_cons_self _ _)
      rw [List.flatten_cons, List.drop_append_eq_append_drop,
        List.drop_eq_nil_of_le (by omega), hlen]
      have h4 : 4 * (m + 1) - 4 = 4 * m := by omega
      rw [h4, List.nil_append, ih m (fun g2 hg2 => hg g2 (List.mem_cons_of_mem _ hg2)),
        List.drop_succ_cons]

/-- A cons line starts with '=' exactly when its head is '='. -/
theorem lineStartsWithEq_cons (y : Char) (t : List Char) (hy : y ≠ '=') :
    lineStartsWithEq (y :: t) = false := by
  simp [lineStartsWithEq, hy]

/-- No chunk of a group-aligned base64 stream starts with '='. -/
theorem chunks64F_heads : ∀ (fuel : Nat) (gs : List (List Char)),
    (∀ g ∈ gs, g.length = 4 ∧ ∃ n, g.head? = some (b64Chr n)) →
    gs.flatten.length ≤ fuel →
    ∀ ch ∈ chunks64F fuel gs.flatten, lineStartsWithEq ch = false := by
  intro fuel
  induction fuel with
  | zero =>
    intro gs _ hl ch hch
    have h : gs.flatten = [] := List.length_eq_zero.mp (Nat.le_zero.mp hl)
    rw [h] at hch
    simp [chunks64F] at hch
  | succ n ih =>
    intro gs hg hl ch hch
    cases gs with
    | nil => simp [chunks64F] at hch
    | cons g rest =>
      obtain ⟨hlen, m, hhead⟩ := hg g (List.mem_cons_self _ _)
      cases g with
      | nil => simp at hlen
      | cons x g2 =>
        have hx : x = b64Chr m := by simpa using hhead
        have hg2 : g2.length = 3 := by simp at hlen; omega
        rw [List.flatten_cons, List.cons_append, chunks64F] at hch
        rcases List.mem_cons.mp hch with hc | hc
        · subst hc
          rw [hx]
          exact lineStartsWithEq_cons _ _ (b64Chr_ne_pad m)
        · have hdrop : (g2 ++ rest.flatten).drop 63 = (rest.drop 15).flatten := by
            rw [List.drop_append_eq_append_drop, List.drop_eq_nil_of_le (by omega), hg2,
              List.nil_append]
            have h60 : 63 - 3 = 4 * 15 := by omega
            rw [h60, flatten_drop_groups rest 15 (fun g3 hg3 =>
              (hg g3 (List.mem_cons_of_mem _ hg3)).1)]
          rw [hdrop] at hc
          refine ih (rest.drop 15) ?_ ?_ ch hc
          · intro g3 hg3
            exact hg g3 (List.mem_cons_of_mem _ (List.drop_subset _ _ hg3))
          · rw [← hdrop]
            rw [List.length_drop]
            simp [List.length_append] at hl ⊢
            omega

/-- No line of the armored base64 body starts with '='. -/
theorem chunks64_b64_heads (b : List Nat) :
    ∀ ch ∈ chunks64 (b64Encode b), lineStartsWithEq ch = false := by
  obtain ⟨gs, hgs, hprops⟩ := b64Encode_grouped b
  rw [chunks64, hgs]
  exact chunks64F_heads gs.flatten.length gs hprops le_rfl

/-- Splitting after a newline-free prefix. -/
theorem splitNl_append (xs ys : List Char) (h : '\n' ∉ xs) :
    splitNl (xs ++ '\n' :: ys) = xs :: splitNl ys := by
  induction xs with
  | nil => simp [splitNl]
  | cons c r ih =>
    have hc : c ≠ '\n' := fun he => h (by simp [he])
    have hr : '\n' ∉ r := fun hm => h (List.mem_cons_of_mem _ hm)
    rw [List.cons_append, splitNl, if_neg hc, ih hr]

/-- Splitting the newline-joined chunk list followed by a newline: the chunks
become the lines (with one empty line when there are no chunks at all, since
the separator-free empty body still ends in the following newline). -/
theorem splitNl_intercalate : ∀ (chunks : List (List Char)) (ys : List Char),
    (∀ ch ∈ chunks, '\n' ∉ ch) →
    splitNl (intercalateNl chunks ++ '\n' :: ys) =
      (if chunks = [] then [[]] else chunks) ++ splitNl ys := by
  intro chunks
  induction chunks with
  | nil =>
    intro ys _
    simp [intercalateNl, splitNl]
  | cons ch rest ih =>
    intro ys hch
    cases rest with
    | nil =>
      rw [intercalateNl, splitNl_append ch ys (hch ch (by simp))]
      simp
    | cons ch2 rest2 =>
      rw [intercalateNl, List.append_assoc, List.cons_append]
      rw [splitNl_append ch _ (hch ch (by simp))]
      rw [ih ys (fun c hc => hch c (List.mem_cons_of_mem _ hc))]
      simp
      intro h
      exact List.noConfusion h

/-- span of a list of satisfying lines followed by a failing line. -/
theorem span_lines (p : List Char → Bool) :
    ∀ (A : List (List Char)) (x : List Char) (B : List (List Char)),
      (∀ l ∈ A, p l = true) → p x = false →
      (A ++ x :: B).span p = (A, x :: B) := by
  intro A
  induction A with
  | nil =>
    intro x B _ hx
    simp [List.span_eq_take_drop, List.takeWhile_cons, hx, List.dropWhile_cons]
  | cons a A2 ih =>
    intro x B hA hx
    have ha : p a = true := hA a (by simp)
    have htail := ih x B (fun l hl => hA l (List.mem_cons_of_mem _ hl)) hx
    rw [List.span_eq_take_drop] at htail ⊢
    simp only [Prod.mk.injEq] at htail
    rw [List.cons_append, List.takeWhile_cons, List.dropWhile_cons]
    simp [ha, htail.1, htail.2]

/-- The armor checksum bytes are bytes. -/
theorem crc24Bytes_bounds (d : List Nat) : ∀ x ∈ crc24Bytes d, x < 256 := by
  intro x hx
  simp only [crc24Bytes, List.mem_cons, List.not_mem_nil, or_false] at hx
  rcases hx with h | h | h <;> subst h <;> omega

/-- C7: armoring a byte sequence and decoding the armored text yields exactly
the original bytes — the armor envelope is lossless and reversible. -/
theorem armor_roundtrip (b : List Nat) (hb : ∀ x ∈ b, x < 256) :
    armorDecode (enarmor b) = some b := by
  have hchnl : ∀ ch ∈ chunks64 (b64Encode b), '\n' ∉ ch := by
    intro ch hch hmem
    exact b64Encode_ne_nl b '\n' (chunks64F_subset _ _ ch hch '\n' hmem) rfl
  have h3 : splitNl ('=' :: (b64Encode (crc24Bytes b) ++ '\n' :: (armorEndLine ++ ['\n']))) =
      ('=' :: b64Encode (crc24Bytes b)) :: armorEndLine :: [[]] := by
    have hnl : '\n' ∉ '=' :: b64Encode (crc24Bytes b) := by
      intro hmem
      rcases List.mem_cons.mp hmem with h | h
      · exact absurd h (by decide)
      · exact b64Encode_ne_nl _ '\n' h rfl
    have h1 := splitNl_append ('=' :: b64Encode (crc24Bytes b)) (armorEndLine ++ ['\n']) hnl
    rw [List.cons_append] at h1
    rw [h1]
    have h4 := splitNl_append armorEndLine [] (by decide)
    rw [h4]
    rfl
  have hsplit : splitNl (enarmor b) =
      armorBeginLine :: [] ::
        ((if chunks64 (b64Encode b) = [] then [[]] else chunks64 (b64Encode b)) ++
          ('=' :: b64Encode (crc24Bytes b)) :: armorEndLine :: [[]]) := by
    rw [enarmor]
    rw [splitNl_append armorBeginLine _ (by decide)]
    rw [splitNl, if_pos rfl]
    rw [splitNl_intercalate _ _ hchnl]
    rw [h3]
  have hflat : (if chunks64 (b64Encode b) = [] then [[]]
      else chunks64 (b64Encode b)).flatten = b64Encode b := by
    by_cases h : chunks64 (b64Encode b) = []
    · rw [if_pos h]
      have h2 := chunks64_flatten (b64Encode b)
      rw [h] at h2
      simp only [List.flatten_nil] at h2
      simp only [List.flatten_cons, List.flatten_nil, List.append_nil]
      exact h2
    · rw [if_neg h]
      exact chunks64_flatten (b64Encode b)
  have hspan : ((if chunks64 (b64Encode b) = [] then [[]] else chunks64 (b64Encode b)) ++
      ('=' :: b64Encode (crc24Bytes b)) :: armorEndLine :: [[]]).span
        (fun l => ! lineStartsWithEq l) =
      ((if chunks64 (b64Encode b) = [] then [[]] else chunks64 (b64Encode b)),
        ('=' :: b64Encode (crc24Bytes b)) :: armorEndLine :: [[]]) := by
    refine span_lines _ _ _ _ ?_ ?_
    · intro l hl
      by_cases h : chunks64 (b64Encode b) = []
      · rw [if_pos h] at hl
        simp only [List.mem_singleton] at hl
        subst hl
        rfl
      · rw [if_neg h] at hl
        rw [Bool.not_eq_true']
        exact chunks64_b64_heads b l hl
    · rfl
  simp only [armorDecode, hsplit, hspan, hflat, b64_roundtrip b hb,
    b64_roundtrip (crc24Bytes b) (crc24Bytes_bounds b), and_self, if_true]

/-- Witness for `armor_roundtrip` at a concrete byte sequence. -/
theorem armor_roundtrip_witness : armorDecode (enarmor [0, 1, 255]) = some [0, 1, 255] :=
  armor_roundtrip [0, 1, 255] (by decide)

end PassStore
